import Mathlib

/-
Formal model of the DeskPi fan-curve program (src/main.rs).

Modelling conventions:
* `u8` values are modelled as `ℕ`; subtraction on `u8` is modelled with
  wrapping (release-profile) semantics via `wrapSub`, i.e. `(a + 256 - b) % 256`.
* The `f32` query temperature is modelled as `ℚ`, with finite `f32`
  arithmetic idealized as exact rational arithmetic.  The IEEE-754 special
  values that the source actually produces (division by a zero temperature
  difference, the `NaN as u8` saturating cast) are modelled explicitly at
  the single place they arise, in `Curve.calculate`.
* A Rust `panic!` is modelled by `Option.none`; fallible parsing returns
  `Option`.
-/

/-- A point in the fan curve (source: `struct Point { temperature: u8, speed: u8 }`). -/
structure Point where
  temperature : ℕ
  speed : ℕ
deriving DecidableEq

def Point.new (temperature speed : ℕ) : Point := ⟨temperature, speed⟩

/-- The derived lexicographic `Ord` on `Point`: by `temperature` first,
then by `speed` (field declaration order, as `#[derive(PartialOrd, Ord)]`). -/
def Point.le (p q : Point) : Prop :=
  p.temperature < q.temperature ∨ (p.temperature = q.temperature ∧ p.speed ≤ q.speed)

instance : DecidableRel Point.le := fun p q =>
  inferInstanceAs (Decidable (p.temperature < q.temperature ∨
    (p.temperature = q.temperature ∧ p.speed ≤ q.speed)))

instance : IsTotal Point Point.le :=
  ⟨fun p q => by simp only [Point.le]; omega⟩

instance : IsTrans Point Point.le :=
  ⟨fun p q r hpq hqr => by simp only [Point.le] at *; omega⟩

/-- Digit-sequence part of Rust's `u8::from_str`: at least one ASCII digit,
and the accumulated value must fit in `0..=255`; anything else is an error. -/
def u8Digits (ds : List Char) : Option ℕ :=
  if ds.isEmpty || !ds.all Char.isDigit then none
  else if ds.foldl (fun acc c => 10 * acc + (c.toNat - 48)) 0 ≤ 255 then
    some (ds.foldl (fun acc c => 10 * acc + (c.toNat - 48)) 0)
  else none

/-- An optional single leading `+` sign is skipped by Rust's unsigned
integer parser (a `-` sign is not accepted for `u8`). -/
def stripPlus : List Char → List Char
  | '+' :: rest => rest
  | cs => cs

/-- Model of Rust's `u8::from_str` (core library, used by `num.parse()` in
the source): an optional single leading `+` sign, then at least one ASCII
digit, and the resulting value must fit in `0..=255`. -/
def u8FromStr (cs : List Char) : Option ℕ := u8Digits (stripPlus cs)

/-- Model of `s.splitn(2, ':')`: the characters before the first `:` and,
when a `:` occurs, the whole remainder after it (which may contain further
`:` characters).  `none` in the second component means no separator was
found, i.e. `splitn` yielded a single field. -/
def splitnTwo : List Char → List Char × Option (List Char)
  | [] => ([], none)
  | c :: rest =>
    if c = ':' then ([], some rest)
    else
      let (l, r) := splitnTwo rest
      (c :: l, r)

/-- Source: `impl FromStr for Point`.  `splitn(2, ':')` yields one or two
fields; the `[left, right]` slice pattern rejects a single field, and both
fields must parse as `u8`. -/
def Point.from_str (s : String) : Option Point :=
  match splitnTwo s.data with
  | (_, none) => none
  | (left, some right) =>
    match u8FromStr left, u8FromStr right with
    | some temperature, some speed => some ⟨temperature, speed⟩
    | _, _ => none

/-- Source: `struct Curve(Vec<Point>)`. -/
structure Curve where
  points : List Point
deriving DecidableEq

/-- Source: `Curve::from_points` simply wraps the vector, unchanged. -/
def Curve.from_points (points : List Point) : Curve := ⟨points⟩

/-- Wrapping `u8` subtraction (release-profile semantics) for operands in
`0..=255`. -/
def wrapSub (a b : ℕ) : ℕ := (a + 256 - b) % 256

/-- Rust's saturating `as u8` cast applied to a finite `f32` value:
truncation toward zero, clamped into `0..=255`. -/
def f32AsU8 (v : ℚ) : ℕ := if v < 0 then 0 else min 255 (Int.toNat ⌊v⌋)

/-- Source: `Curve::bounds`.  The peekable-iterator loop: the last element
becomes both bounds; an adjacent pair `(point, next)` with
`temperature > point.temperature && temperature < next.temperature` is
returned as soon as it is found; an empty curve hits `panic!()` (`none`). -/
def bounds : List Point → ℚ → Option (Point × Point)
  | [], _ => none
  | [p], _ => some (p, p)
  | p :: q :: rest, t =>
    if (p.temperature : ℚ) < t ∧ t < (q.temperature : ℚ) then some (p, q)
    else bounds (q :: rest) t

/-- Source: `Curve::calculate`.  When `bounds` returns the degenerate pair
(`lower = upper`, so `tempdiff = 0` and `speeddiff = 0`), the source
computes `percent = (temperature - lower.temperature as f32) / 0.0`, which
is `±∞` (or `NaN` when the numerator is zero); then
`speeddiff as f32 * percent = 0.0 * ±∞ = NaN` (likewise `0.0 * NaN = NaN`),
`lower.speed as f32 + NaN = NaN`, and the saturating `as u8` cast maps
`NaN` to `0`.  This is the `tempdiff = 0` branch below.  In the other
branch every `f32` operation is finite and is modelled exactly over `ℚ`. -/
def Curve.calculate (c : Curve) (t : ℚ) : Option ℕ :=
  match bounds c.points t with
  | none => none
  | some (lower, upper) =>
    let tempdiff := wrapSub upper.temperature lower.temperature
    let speeddiff := wrapSub upper.speed lower.speed
    if tempdiff = 0 then
      some 0
    else
      some (f32AsU8 ((lower.speed : ℚ) +
        (speeddiff : ℚ) * ((t - (lower.temperature : ℚ)) / (tempdiff : ℚ))))

/-- Comparison of points by temperature only (the order in which a
constructed curve's points are non-decreasing). -/
def tempLe (p q : Point) : Prop := p.temperature ≤ q.temperature

instance : DecidableRel tempLe := fun p q =>
  inferInstanceAs (Decidable (p.temperature ≤ q.temperature))

instance : IsTrans Point tempLe :=
  ⟨fun _ _ _ hpq hqr => Nat.le_trans hpq hqr⟩

/-- The construction invariants the claims assume of a curve: at least two
points, sorted non-decreasing by temperature, and all coordinates within
the `u8` range. -/
def Curve.wellFormed (c : Curve) : Prop :=
  2 ≤ c.points.length ∧ c.points.Sorted tempLe ∧
    ∀ p ∈ c.points, p.temperature ≤ 255 ∧ p.speed ≤ 255

instance (c : Curve) : Decidable c.wellFormed :=
  inferInstanceAs (Decidable (_ ∧ _))

/-- The two error exits of `main`'s curve-construction section. -/
inductive MainError where
  | parseError
  | constructionError
deriving DecidableEq

/-- Model of `main` (src/main.rs lines 88-103): the `0:0` anchor point is
chained in front of the parsed command-line points, collected into a
`HashSet` (fail-fast on any parse error), moved to a vector, sorted by the
derived `Point` ordering, and rejected when fewer than two distinct points
remain.  The `HashSet` is modelled by `List.dedup`; its arbitrary iteration
order is irrelevant because sorting distinct elements by the total order
`Point.le` has a unique result, here produced by `List.insertionSort`. -/
def mainCurve (args : List String) : Except MainError Curve :=
  match args.mapM Point.from_str with
  | none => .error .parseError
  | some ps =>
    let pts := List.insertionSort Point.le (List.dedup (Point.new 0 0 :: ps))
    if pts.length < 2 then .error .constructionError
    else .ok (Curve.from_points pts)

instance : DecidableEq (Except MainError Curve)
  | .error a, .error b =>
    if h : a = b then .isTrue (by rw [h]) else .isFalse (fun hc => h (by injection hc))
  | .error _, .ok _ => .isFalse (fun hc => Except.noConfusion hc)
  | .ok _, .error _ => .isFalse (fun hc => Except.noConfusion hc)
  | .ok a, .ok b =>
    if h : a = b then .isTrue (by rw [h]) else .isFalse (fun hc => h (by injection hc))

/-- The straddle test of the `bounds` loop fails on the adjacent pair `(p, q)`. -/
def noStraddle (t : ℚ) (p q : Point) : Prop :=
  ¬ ((p.temperature : ℚ) < t ∧ t < (q.temperature : ℚ))

/-! ### Helper lemmas about `wrapSub`, `bounds` and `splitnTwo` -/

lemma wrapSub_self (a : ℕ) : wrapSub a a = 0 := by
  unfold wrapSub
  omega

lemma wrapSub_of_le (a b : ℕ) (hba : b ≤ a) (ha : a ≤ 255) : wrapSub a b = a - b := by
  unfold wrapSub
  omega

lemma bounds_isSome : ∀ (l : List Point), l ≠ [] → ∀ t : ℚ, ∃ pr, bounds l t = some pr
  | [], h, _ => absurd rfl h
  | [p], _, _ => ⟨(p, p), rfl⟩
  | p :: q :: rest, _, t => by
    by_cases hc : (p.temperature : ℚ) < t ∧ t < (q.temperature : ℚ)
    · exact ⟨(p, q), by simp [bounds, hc]⟩
    · obtain ⟨pr, hpr⟩ := bounds_isSome (q :: rest) (List.cons_ne_nil _ _) t
      exact ⟨pr, by simp only [bounds, if_neg hc]; exact hpr⟩

lemma bounds_getLast_of_chain : ∀ (l : List Point) (h : l ≠ []) (t : ℚ),
    l.Chain' (noStraddle t) → bounds l t = some (l.getLast h, l.getLast h)
  | [], h, _, _ => absurd rfl h
  | [_], _, _, _ => rfl
  | p :: q :: rest, _, t, hch => by
    obtain ⟨h1, h2⟩ := List.chain'_cons.mp hch
    have ih := bounds_getLast_of_chain (q :: rest) (List.cons_ne_nil _ _) t h2
    simp only [bounds, if_neg h1]
    rw [List.getLast_cons (List.cons_ne_nil q rest)]
    exact ih

lemma chain'_noStraddle_of_le (l : List Point) (t : ℚ)
    (hall : ∀ p ∈ l, t ≤ (p.temperature : ℚ)) : l.Chain' (noStraddle t) := by
  induction l with
  | nil => exact List.chain'_nil
  | cons a l ih =>
    cases l with
    | nil => exact List.chain'_singleton a
    | cons b l' =>
      refine List.chain'_cons.mpr ⟨?_, ih ?_⟩
      · rintro ⟨hlt, -⟩
        exact absurd hlt (not_lt.mpr (hall a (List.mem_cons_self _ _)))
      · intro p hp
        exact hall p (List.mem_cons_of_mem _ hp)

lemma chain'_noStraddle_of_ge (l : List Point) (t : ℚ)
    (hall : ∀ p ∈ l, (p.temperature : ℚ) ≤ t) : l.Chain' (noStraddle t) := by
  induction l with
  | nil => exact List.chain'_nil
  | cons a l ih =>
    cases l with
    | nil => exact List.chain'_singleton a
    | cons b l' =>
      refine List.chain'_cons.mpr ⟨?_, ih ?_⟩
      · rintro ⟨-, hlt⟩
        exact absurd hlt (not_lt.mpr (hall b (List.mem_cons_of_mem _ (List.mem_cons_self _ _))))
      · intro p hp
        exact hall p (List.mem_cons_of_mem _ hp)

lemma bounds_getLast_of_mem : ∀ (l : List Point) (h : l ≠ []) (p : Point),
    l.Sorted tempLe → p ∈ l →
    bounds l (p.temperature : ℚ) = some (l.getLast h, l.getLast h)
  | [], h, _, _, _ => absurd rfl h
  | [a], _, _, _, _ => rfl
  | a :: b :: rest, hne, p, hs, hp => by
    rcases List.mem_cons.mp hp with rfl | hp'
    · -- the query temperature is at or below every temperature in the list
      apply bounds_getLast_of_chain
      apply chain'_noStraddle_of_le
      intro q hq
      rcases List.mem_cons.mp hq with rfl | hq'
      · exact le_refl _
      · exact_mod_cast (List.sorted_cons.mp hs).1 q hq'
    · -- p sits in the tail, so the head pair cannot straddle p.temperature
      have hs' := (List.sorted_cons.mp hs).2
      have hbp : b.temperature ≤ p.temperature := by
        rcases List.mem_cons.mp hp' with rfl | hp''
        · exact le_refl _
        · exact (List.sorted_cons.mp hs').1 p hp''
      have hcond : ¬ ((a.temperature : ℚ) < (p.temperature : ℚ) ∧
          (p.temperature : ℚ) < (b.temperature : ℚ)) := by
        rintro ⟨-, h2⟩
        exact absurd (Nat.cast_le.mpr hbp) (not_le.mpr h2)
      have ih := bounds_getLast_of_mem (b :: rest) (List.cons_ne_nil _ _) p hs' hp'
      simp only [bounds, if_neg hcond]
      rw [List.getLast_cons (List.cons_ne_nil b rest)]
      exact ih

lemma bounds_straddle : ∀ (pre : List Point) (lower upper : Point) (post : List Point) (t : ℚ),
    (pre ++ lower :: upper :: post).Sorted tempLe →
    (lower.temperature : ℚ) < t → t < (upper.temperature : ℚ) →
    bounds (pre ++ lower :: upper :: post) t = some (lower, upper)
  | [], lower, upper, post, t, _, h1, h2 => by
    simp only [List.nil_append, bounds, if_pos (And.intro h1 h2)]
  | a :: pre, lower, upper, post, t, hs, h1, h2 => by
    have hs' : (pre ++ lower :: upper :: post).Sorted tempLe := (List.sorted_cons.mp hs).2
    have ih := bounds_straddle pre lower upper post t hs' h1 h2
    rw [List.cons_append]
    cases hpre : pre ++ lower :: upper :: post with
    | nil => exact absurd hpre (by simp)
    | cons b l' =>
      have hmem : lower ∈ b :: l' := by
        rw [← hpre]
        simp
      have hsbl : (b :: l').Sorted tempLe := by
        rw [← hpre]
        exact hs'
      have hbl : tempLe b lower := by
        rcases List.mem_cons.mp hmem with rfl | hm
        · exact le_refl _
        · exact (List.sorted_cons.mp hsbl).1 lower hm
      have hcond : ¬ ((a.temperature : ℚ) < t ∧ t < (b.temperature : ℚ)) := by
        rintro ⟨-, hbt⟩
        have hble : (b.temperature : ℚ) ≤ (lower.temperature : ℚ) := Nat.cast_le.mpr hbl
        linarith
      rw [hpre] at ih
      simp only [bounds, if_neg hcond]
      exact ih

lemma splitnTwo_append (l r : List Char) (hl : ':' ∉ l) :
    splitnTwo (l ++ ':' :: r) = (l, some r) := by
  induction l with
  | nil => simp [splitnTwo]
  | cons c l ih =>
    have hc : ¬ c = ':' := fun h => hl (h ▸ List.mem_cons_self _ _)
    have ihl := ih (fun h => hl (List.mem_cons_of_mem _ h))
    simp only [List.cons_append, splitnTwo, if_neg hc, List.append_eq, ihl]

lemma splitnTwo_some : ∀ (cs l r : List Char), splitnTwo cs = (l, some r) →
    cs = l ++ ':' :: r ∧ ':' ∉ l
  | [], l, r => by
    intro h
    exact absurd (congrArg Prod.snd h) (by simp [splitnTwo])
  | c :: cs, l, r => by
    intro h
    by_cases hc : c = ':'
    · subst hc
      rw [splitnTwo, if_pos rfl] at h
      injection h with h1 h2
      subst h1
      obtain rfl := Option.some.inj h2
      exact ⟨rfl, by simp⟩
    · rw [splitnTwo] at h
      rw [if_neg hc] at h
      cases hsp : splitnTwo cs with
      | mk l1 o1 =>
        rw [hsp] at h
        simp only [Prod.mk.injEq] at h
        obtain ⟨rfl, ho⟩ := h
        obtain ⟨hd, hnotin⟩ := splitnTwo_some cs l1 r (by rw [hsp, ho])
        refine ⟨by rw [List.cons_append, hd], ?_⟩
        intro hmem
        rcases List.mem_cons.mp hmem with hh | hh
        · exact hc hh.symm
        · exact hnotin hh

lemma u8Digits_le (ds : List Char) (n : ℕ) (h : u8Digits ds = some n) : n ≤ 255 := by
  unfold u8Digits at h
  split at h
  · exact absurd h (by simp)
  · split at h
    next hle => exact (Option.some.inj h) ▸ hle
    next => exact absurd h (by simp)

lemma u8FromStr_le (cs : List Char) (n : ℕ) (h : u8FromStr cs = some n) : n ≤ 255 :=
  u8Digits_le (stripPlus cs) n h

/-! ### Claim theorems -/

/-- C1: for every curve satisfying the construction invariants and every
rational query temperature, `Curve.calculate` returns a value: the bounds
search cannot hit its `panic!` arm on a nonempty point list, and (with
wrapping `u8` subtraction and the saturating float-to-integer cast) the
arithmetic afterwards is total, including for curves whose speeds decrease
with temperature. -/
theorem calculate_never_fails (c : Curve) (hwf : c.wellFormed) (t : ℚ) :
    (c.calculate t).isSome = true := by
  have hne : c.points ≠ [] := by
    intro h
    have hlen := hwf.1
    rw [h] at hlen
    exact absurd hlen (by simp)
  obtain ⟨⟨lower, upper⟩, hb⟩ := bounds_isSome c.points hne t
  unfold Curve.calculate
  rw [hb]
  by_cases h0 : wrapSub upper.temperature lower.temperature = 0
  · simp [h0]
  · simp [h0]

theorem calculate_never_fails_witness :
    (Curve.calculate (Curve.from_points [Point.new 0 100, Point.new 50 20]) 25).isSome = true :=
  calculate_never_fails (Curve.from_points [Point.new 0 100, Point.new 50 20]) (by decide) 25

/-- C2: the high clamp claimed by the spec does not hold.  On the spec's own
scenario (points `{0:0, 50:50, 100:100}`, query `150 ≥ 100`) the code
returns `0`, not the maximum point's speed `100`: `bounds` yields the last
point as both bounds, so `tempdiff = 0`, `percent = 50.0/0.0 = +∞`,
`speeddiff(0) · ∞ = NaN`, and the `NaN as u8` cast gives `0`. -/
theorem high_clamp_bug :
    Curve.wellFormed (Curve.from_points [Point.new 0 0, Point.new 50 50, Point.new 100 100]) ∧
    Curve.calculate (Curve.from_points [Point.new 0 0, Point.new 50 50, Point.new 100 100]) 150
      = some 0 ∧
    ¬ Curve.calculate (Curve.from_points [Point.new 0 0, Point.new 50 50, Point.new 100 100]) 150
      = some 100 := by decide

/-- C3 counterexample: the curve `[{10,20}, {40,90}]` is well-formed and
`5 ≤ 10` is at or below its minimum temperature, yet evaluation at `5`
returns `0`, not the minimum point's speed `20`. -/
theorem low_clamp_cex :
    Curve.wellFormed (Curve.from_points [Point.new 10 20, Point.new 40 90]) ∧
    ((5 : ℚ) ≤ ((Point.new 10 20).temperature : ℚ)) ∧
    Curve.calculate (Curve.from_points [Point.new 10 20, Point.new 40 90]) 5 = some 0 ∧
    ¬ Curve.calculate (Curve.from_points [Point.new 10 20, Point.new 40 90]) 5 = some 20 := by
  decide

/-- C3 amended: for every well-formed curve and every query temperature at
or below every point's temperature, `calculate` returns `0`: the strict
straddle test never fires, `bounds` falls through to the last point, and
the degenerate pair goes through the `NaN as u8` path. -/
theorem low_clamp_amended (c : Curve) (hwf : c.wellFormed) (t : ℚ)
    (hle : ∀ p ∈ c.points, t ≤ (p.temperature : ℚ)) :
    c.calculate t = some 0 := by
  have hne : c.points ≠ [] := by
    intro h
    have hlen := hwf.1
    rw [h] at hlen
    exact absurd hlen (by simp)
  have hb := bounds_getLast_of_chain c.points hne t (chain'_noStraddle_of_le c.points t hle)
  unfold Curve.calculate
  rw [hb]
  simp [wrapSub_self]

theorem low_clamp_amended_witness :
    Curve.calculate (Curve.from_points [Point.new 10 20, Point.new 40 90]) 5 = some 0 :=
  low_clamp_amended (Curve.from_points [Point.new 10 20, Point.new 40 90]) (by decide) 5
    (by decide)

/-- C4 counterexample: `{50,50}` is a point of the well-formed curve
`[{0,0}, {50,50}, {100,100}]`, yet evaluation at exactly temperature `50`
returns `0`, not `50`. -/
theorem exact_hit_cex :
    Curve.wellFormed (Curve.from_points [Point.new 0 0, Point.new 50 50, Point.new 100 100]) ∧
    Point.new 50 50 ∈
      (Curve.from_points [Point.new 0 0, Point.new 50 50, Point.new 100 100]).points ∧
    Curve.calculate (Curve.from_points [Point.new 0 0, Point.new 50 50, Point.new 100 100]) 50
      = some 0 ∧
    ¬ Curve.calculate (Curve.from_points [Point.new 0 0, Point.new 50 50, Point.new 100 100]) 50
      = some 50 := by decide

/-- C4 amended: evaluating a well-formed curve at any of its points' exact
temperatures returns `0`, whatever that point's speed: both straddle
inequalities are strict, so an exact temperature match never selects a
pair, the search falls through to the last point, and the degenerate pair
goes through the `NaN as u8` path. -/
theorem exact_hit_amended (c : Curve) (hwf : c.wellFormed) (p : Point) (hp : p ∈ c.points) :
    c.calculate (p.temperature : ℚ) = some 0 := by
  have hne : c.points ≠ [] := by
    intro h
    rw [h] at hp
    exact absurd hp (by simp)
  have hb := bounds_getLast_of_mem c.points hne p hwf.2.1 hp
  unfold Curve.calculate
  rw [hb]
  simp [wrapSub_self]

theorem exact_hit_amended_witness :
    Curve.calculate (Curve.from_points [Point.new 0 10, Point.new 40 90])
      ((Point.new 40 90).temperature : ℚ) = some 0 :=
  exact_hit_amended (Curve.from_points [Point.new 0 10, Point.new 40 90]) (by decide)
    (Point.new 40 90) (by decide)

/-- C7 counterexample: on the curve `[{0,10}, {40,90}]` at query `100` the
bounds search selects the last point as both bounds (equal temperatures),
and evaluation returns `0`, not `lower.speed = 90`; the division by zero is
not avoided but performed in `f32`, and the resulting `NaN` is cast to `0`. -/
theorem degenerate_pair_cex :
    bounds [Point.new 0 10, Point.new 40 90] 100
      = some (Point.new 40 90, Point.new 40 90) ∧
    Curve.calculate (Curve.from_points [Point.new 0 10, Point.new 40 90]) 100 = some 0 ∧
    ¬ Curve.calculate (Curve.from_points [Point.new 0 10, Point.new 40 90]) 100 = some 90 := by
  decide

/-- C7 amended: whenever the bounds search selects a lower and an upper
point with equal temperature, `calculate` returns `0` (not `lower.speed`):
`tempdiff = 0`, the `f32` division by zero yields `±∞`/`NaN`, multiplying
by the zero `speeddiff` yields `NaN`, and the `NaN as u8` cast gives `0`. -/
theorem degenerate_pair_amended (c : Curve) (t : ℚ) (lower upper : Point)
    (hb : bounds c.points t = some (lower, upper))
    (heq : lower.temperature = upper.temperature) :
    c.calculate t = some 0 := by
  unfold Curve.calculate
  rw [hb]
  have h0 : wrapSub upper.temperature lower.temperature = 0 := by
    rw [heq]
    exact wrapSub_self _
  simp [h0]

theorem degenerate_pair_amended_witness :
    Curve.calculate (Curve.from_points [Point.new 0 10, Point.new 40 90]) 100 = some 0 :=
  degenerate_pair_amended (Curve.from_points [Point.new 0 10, Point.new 40 90]) 100
    (Point.new 40 90) (Point.new 40 90) (by decide) rfl

/-- C5 counterexample: on the well-formed decreasing-speed curve
`[{0,200}, {10,100}]`, the query `5` lies strictly between the adjacent
temperatures `0` and `10`; the claimed formula gives
`200 + (5/10)·(100-200) = 150`, but the `u8` subtraction
`upper.speed - lower.speed` wraps to `156`, giving `200 + 156·(1/2) = 278`,
which the saturating cast clamps to `255`. -/
theorem interpolation_cex :
    Curve.wellFormed (Curve.from_points [Point.new 0 200, Point.new 10 100]) ∧
    (((Point.new 0 200).temperature : ℚ) < 5 ∧ (5 : ℚ) < ((Point.new 10 100).temperature : ℚ)) ∧
    Curve.calculate (Curve.from_points [Point.new 0 200, Point.new 10 100]) 5 = some 255 ∧
    ¬ Curve.calculate (Curve.from_points [Point.new 0 200, Point.new 10 100]) 5 = some 150 := by
  have hcalc : Curve.calculate (Curve.from_points [Point.new 0 200, Point.new 10 100]) 5
      = some 255 := by
    simp only [Curve.calculate, Curve.from_points, bounds, wrapSub, f32AsU8, Point.new]
    norm_num
  refine ⟨by decide, by constructor <;> decide, hcalc, ?_⟩
  rw [hcalc]
  decide

/-- C5 amended: for a well-formed curve, a query temperature strictly
between the temperatures of an adjacent pair of points, and a
*non-decreasing* speed across that pair, `calculate` returns exactly the
truncated linear blend of the claim.  (For a decreasing pair the `u8`
subtraction wraps and the claim fails, see the counterexample.) -/
theorem interpolation_amended (c : Curve) (hwf : c.wellFormed)
    (pre post : List Point) (lower upper : Point)
    (hsplit : c.points = pre ++ lower :: upper :: post)
    (t : ℚ) (h1 : (lower.temperature : ℚ) < t) (h2 : t < (upper.temperature : ℚ))
    (h3 : lower.speed ≤ upper.speed) :
    c.calculate t = some (Int.toNat ⌊(lower.speed : ℚ) +
      (t - (lower.temperature : ℚ)) /
        ((upper.temperature : ℚ) - (lower.temperature : ℚ)) *
      ((upper.speed : ℚ) - (lower.speed : ℚ))⌋) := by
  obtain ⟨hlen, hsort, hrange⟩ := hwf
  have hmem_u : upper ∈ c.points := by
    rw [hsplit]
    simp
  have hul : lower.temperature < upper.temperature := by
    have : (lower.temperature : ℚ) < (upper.temperature : ℚ) := lt_trans h1 h2
    exact_mod_cast this
  have hu255t : upper.temperature ≤ 255 := (hrange upper hmem_u).1
  have hu255s : upper.speed ≤ 255 := (hrange upper hmem_u).2
  have hb : bounds c.points t = some (lower, upper) := by
    rw [hsplit] at hsort ⊢
    exact bounds_straddle pre lower upper post t hsort h1 h2
  have htd : wrapSub upper.temperature lower.temperature
      = upper.temperature - lower.temperature :=
    wrapSub_of_le _ _ (le_of_lt hul) hu255t
  have hsd : wrapSub upper.speed lower.speed = upper.speed - lower.speed :=
    wrapSub_of_le _ _ h3 hu255s
  have htd0 : ¬ wrapSub upper.temperature lower.temperature = 0 := by omega
  have hred : c.calculate t =
      some (f32AsU8 ((lower.speed : ℚ) +
        ((upper.speed - lower.speed : ℕ) : ℚ) *
          ((t - (lower.temperature : ℚ)) /
            ((upper.temperature - lower.temperature : ℕ) : ℚ)))) := by
    unfold Curve.calculate
    rw [hb]
    simp only [htd, hsd]
    rw [if_neg (show ¬ upper.temperature - lower.temperature = 0 by omega)]
  rw [hred, Nat.cast_sub (le_of_lt hul), Nat.cast_sub h3]
  have hveq : (lower.speed : ℚ) + ((upper.speed : ℚ) - (lower.speed : ℚ)) *
      ((t - (lower.temperature : ℚ)) /
        ((upper.temperature : ℚ) - (lower.temperature : ℚ)))
      = (lower.speed : ℚ) + (t - (lower.temperature : ℚ)) /
          ((upper.temperature : ℚ) - (lower.temperature : ℚ)) *
        ((upper.speed : ℚ) - (lower.speed : ℚ)) := by
    ring
  rw [hveq]
  have hden : (0 : ℚ) < (upper.temperature : ℚ) - (lower.temperature : ℚ) := by
    have : (lower.temperature : ℚ) < (upper.temperature : ℚ) := lt_trans h1 h2
    linarith
  have hratio0 : (0 : ℚ) ≤ (t - (lower.temperature : ℚ)) /
      ((upper.temperature : ℚ) - (lower.temperature : ℚ)) :=
    div_nonneg (by linarith) (le_of_lt hden)
  have hratio1 : (t - (lower.temperature : ℚ)) /
      ((upper.temperature : ℚ) - (lower.temperature : ℚ)) ≤ 1 := by
    rw [div_le_one hden]
    linarith
  have hsd0 : (0 : ℚ) ≤ (upper.speed : ℚ) - (lower.speed : ℚ) := by
    have : (lower.speed : ℚ) ≤ (upper.speed : ℚ) := Nat.cast_le.mpr h3
    linarith
  have hv0 : (0 : ℚ) ≤ (lower.speed : ℚ) + (t - (lower.temperature : ℚ)) /
      ((upper.temperature : ℚ) - (lower.temperature : ℚ)) *
      ((upper.speed : ℚ) - (lower.speed : ℚ)) :=
    add_nonneg (Nat.cast_nonneg _) (mul_nonneg hratio0 hsd0)
  have hvle : (lower.speed : ℚ) + (t - (lower.temperature : ℚ)) /
      ((upper.temperature : ℚ) - (lower.temperature : ℚ)) *
      ((upper.speed : ℚ) - (lower.speed : ℚ)) ≤ 255 := by
    have hmul : (t - (lower.temperature : ℚ)) /
        ((upper.temperature : ℚ) - (lower.temperature : ℚ)) *
        ((upper.speed : ℚ) - (lower.speed : ℚ))
        ≤ 1 * ((upper.speed : ℚ) - (lower.speed : ℚ)) :=
      mul_le_mul_of_nonneg_right hratio1 hsd0
    have hus : (upper.speed : ℚ) ≤ 255 := by exact_mod_cast hu255s
    linarith
  unfold f32AsU8
  rw [if_neg (not_lt.mpr hv0)]
  have hfl : ⌊(lower.speed : ℚ) + (t - (lower.temperature : ℚ)) /
      ((upper.temperature : ℚ) - (lower.temperature : ℚ)) *
      ((upper.speed : ℚ) - (lower.speed : ℚ))⌋ ≤ 255 := by
    have h255 : (⌊(255 : ℚ)⌋ : ℤ) = 255 := by norm_num
    have := Int.floor_le_floor (α := ℚ) hvle
    rw [h255] at this
    exact this
  have htn : Int.toNat ⌊(lower.speed : ℚ) + (t - (lower.temperature : ℚ)) /
      ((upper.temperature : ℚ) - (lower.temperature : ℚ)) *
      ((upper.speed : ℚ) - (lower.speed : ℚ))⌋ ≤ 255 := by omega
  rw [min_eq_right htn]

theorem interpolation_amended_witness :
    Curve.calculate (Curve.from_points [Point.new 0 0, Point.new 50 50, Point.new 100 100]) 25
      = some 25 := by
  have h := interpolation_amended
    (Curve.from_points [Point.new 0 0, Point.new 50 50, Point.new 100 100]) (by decide)
    [] [Point.new 100 100] (Point.new 0 0) (Point.new 50 50) rfl 25
    (by decide) (by decide) (by decide)
  rw [h]
  norm_num [Point.new]
  decide

/-- C6 counterexample: `Curve::from_points` itself neither sorts nor fails.
It stores an unsorted two-point vector unchanged, and for a single point it
returns a `Curve` instead of failing with a construction error. -/
theorem from_points_cex :
    (Curve.from_points [Point.new 9 9, Point.new 1 1]).points
      = [Point.new 9 9, Point.new 1 1] ∧
    ¬ List.Sorted Point.le (Curve.from_points [Point.new 9 9, Point.new 1 1]).points ∧
    Curve.from_points [Point.new 5 5] = Curve.mk [Point.new 5 5] := by decide

/-- C6 amended: the sorting and the too-few-points failure live in `main`,
not in `Curve::from_points`: every curve `main` constructs has its points
sorted ascending by the derived `Point` ordering, duplicate-free, and at
least two in number; with no user points (or only a duplicate of the `0:0`
anchor) construction fails with the construction error. -/
theorem construction_amended :
    (∀ args c, mainCurve args = Except.ok c →
      List.Sorted Point.le c.points ∧ c.points.Nodup ∧ 2 ≤ c.points.length) ∧
    mainCurve [] = Except.error MainError.constructionError ∧
    mainCurve ["0:0"] = Except.error MainError.constructionError := by
  refine ⟨?_, by decide, by decide⟩
  intro args c hc
  simp only [mainCurve] at hc
  cases hm : args.mapM Point.from_str with
  | none =>
    rw [hm] at hc
    exact Except.noConfusion hc
  | some ps =>
    rw [hm] at hc
    simp only at hc
    split at hc
    next => exact Except.noConfusion hc
    next hlen =>
      injection hc with h
      subst h
      refine ⟨List.sorted_insertionSort Point.le _, ?_, by
        simp only [Curve.from_points]
        omega⟩
      exact ((List.perm_insertionSort Point.le _).nodup_iff).mpr (List.nodup_dedup _)

theorem construction_amended_witness :
    List.Sorted Point.le (Curve.from_points [Point.new 0 0, Point.new 40 90]).points ∧
    (Curve.from_points [Point.new 0 0, Point.new 40 90]).points.Nodup ∧
    2 ≤ (Curve.from_points [Point.new 0 0, Point.new 40 90]).points.length :=
  construction_amended.1 ["40:90"] (Curve.from_points [Point.new 0 0, Point.new 40 90])
    (by decide)

/-- C8: the parsing contract of `Point::from_str`.  A parse succeeds exactly
when the input splits at the first `:` into two fields that both parse as
`u8` values; any successful parse yields coordinates in `0..=255`, and the
concrete malformed inputs (missing separator, a second separator inside the
second field, a non-integer field, an out-of-range field) all fail. -/
theorem from_str_contract :
    (∀ (s : String) (p : Point), Point.from_str s = some p ↔
      ∃ l r, s.data = l ++ ':' :: r ∧ ':' ∉ l ∧
        u8FromStr l = some p.temperature ∧ u8FromStr r = some p.speed) ∧
    (∀ (s : String) (p : Point), Point.from_str s = some p →
      p.temperature ≤ 255 ∧ p.speed ≤ 255) ∧
    Point.from_str "50" = none ∧
    Point.from_str "1:2:3" = none ∧
    Point.from_str "a:5" = none ∧
    Point.from_str "5:300" = none := by
  have hiff : ∀ (s : String) (p : Point), Point.from_str s = some p ↔
      ∃ l r, s.data = l ++ ':' :: r ∧ ':' ∉ l ∧
        u8FromStr l = some p.temperature ∧ u8FromStr r = some p.speed := by
    intro s p
    constructor
    · intro h
      unfold Point.from_str at h
      cases hsp : splitnTwo s.data with
      | mk l1 o1 =>
        rw [hsp] at h
        cases o1 with
        | none => exact Option.noConfusion h
        | some r1 =>
          have h2 : (match u8FromStr l1, u8FromStr r1 with
              | some temperature, some speed => some (Point.mk temperature speed)
              | _, _ => none) = some p := h
          cases hu1 : u8FromStr l1 with
          | none =>
            cases hu2 : u8FromStr r1 with
            | none =>
              rw [hu1, hu2] at h2
              exact Option.noConfusion h2
            | some b =>
              rw [hu1, hu2] at h2
              exact Option.noConfusion h2
          | some a =>
            cases hu2 : u8FromStr r1 with
            | none =>
              rw [hu1, hu2] at h2
              exact Option.noConfusion h2
            | some b =>
              rw [hu1, hu2] at h2
              injection h2 with hp
              obtain ⟨hd, hnotin⟩ := splitnTwo_some s.data l1 r1 hsp
              subst hp
              exact ⟨l1, r1, hd, hnotin, hu1, hu2⟩
    · rintro ⟨l, r, hd, hnotin, hu1, hu2⟩
      unfold Point.from_str
      rw [hd, splitnTwo_append l r hnotin]
      show (match u8FromStr l, u8FromStr r with
          | some temperature, some speed => some (Point.mk temperature speed)
          | _, _ => none) = some p
      rw [hu1, hu2]
  refine ⟨hiff, ?_, by decide, by decide, by decide, by decide⟩
  intro s p h
  obtain ⟨l, r, -, -, hu1, hu2⟩ := (hiff s p).mp h
  exact ⟨u8FromStr_le l _ hu1, u8FromStr_le r _ hu2⟩

theorem from_str_contract_witness :
    Point.from_str "40:90" = some (Point.new 40 90) ∧
    ((Point.new 40 90).temperature ≤ 255 ∧ (Point.new 40 90).speed ≤ 255) :=
  ⟨(from_str_contract.1 "40:90" (Point.new 40 90)).mpr
      ⟨['4', '0'], ['9', '0'], by decide, by decide, by decide, by decide⟩,
    from_str_contract.2.1 "40:90" (Point.new 40 90) (by decide)⟩

/-- C9: every curve `main` successfully constructs contains the `0:0`
anchor point, exactly once, whether or not the caller supplied it
explicitly — the `HashSet` collects the chained anchor together with the
parsed arguments and deduplicates. -/
theorem zero_point_anchor (args : List String) (c : Curve)
    (h : mainCurve args = Except.ok c) :
    Point.new 0 0 ∈ c.points ∧ List.count (Point.new 0 0) c.points = 1 := by
  simp only [mainCurve] at h
  cases hm : args.mapM Point.from_str with
  | none =>
    rw [hm] at h
    exact Except.noConfusion h
  | some ps =>
    rw [hm] at h
    simp only at h
    split at h
    next => exact Except.noConfusion h
    next hlen =>
      injection h with h'
      subst h'
      have hperm := List.perm_insertionSort Point.le (List.dedup (Point.new 0 0 :: ps))
      have hmem : Point.new 0 0 ∈
          List.insertionSort Point.le (List.dedup (Point.new 0 0 :: ps)) :=
        hperm.mem_iff.mpr (List.mem_dedup.mpr (List.mem_cons_self _ _))
      exact ⟨hmem,
        List.count_eq_one_of_mem (hperm.nodup_iff.mpr (List.nodup_dedup _)) hmem⟩

theorem zero_point_anchor_witness :
    Point.new 0 0 ∈ (Curve.from_points [Point.new 0 0, Point.new 30 100]).points ∧
    List.count (Point.new 0 0) (Curve.from_points [Point.new 0 0, Point.new 30 100]).points
      = 1 :=
  zero_point_anchor ["0:0", "30:100"] (Curve.from_points [Point.new 0 0, Point.new 30 100])
    (by decide)

/-- C10: the parser is more permissive than the canonical digits-only form —
a leading `+` and leading zeros are accepted by the underlying `u8` parser,
so `"+5:007"` parses to the point `(5, 7)` just as `"5:7"` does. -/
theorem from_str_permissive :
    Point.from_str "+5:007" = some (Point.new 5 7) ∧
    Point.from_str "5:7" = some (Point.new 5 7) := by decide
